import Mathlib

/- Verification of the multi-objective multi-fidelity Bayesian optimization
   tutorial script: the exponential cost model, the fidelity-biased
   initialization sampler with its inverse-CDF transform, the bookkeeping of
   the three optimization loops, and the Pareto evaluator. -/

namespace MOMF

/-- The exponential cost model of the script, mapping a fidelity value to a
cost. -/
noncomputable def cost_func (x : ℝ) : ℝ := Real.exp (4.8 * x)

/-- Wrapper applying the cost model to the last coordinate of a design
point, mirroring the script, which applies the cost function to the final
column of the input tensor. -/
noncomputable def cost_callable (x : List ℝ) : ℝ := cost_func (x.getLastD 0)

/-- The inverse transform used to sample fidelities with density inversely
proportional to cost, exactly as written in the source. -/
noncomputable def inv_transform (u : ℝ) : ℝ :=
  5 / 24 *
    Real.log (-Real.exp (24 / 5) / (Real.exp (24 / 5) * u - u - Real.exp (24 / 5)))

/-- The CDF of the distribution on the unit interval with density
proportional to the reciprocal of the cost model; written from the words of
the spec, to be compared with the source definition of the inverse
transform. -/
noncomputable def cdfF (s : ℝ) : ℝ :=
  (1 - Real.exp (-(4.8 * s))) / (1 - Real.exp (-4.8))

/-- Overwrite the last coordinate of a design point, as the tensor slice
assignment of the script does on the final column. -/
def setLast (x : List ℝ) (v : ℝ) : List ℝ := x.dropLast ++ [v]

/-- The sampling loop of gen_init_data. The draws list supplies, in order,
the uniform random vectors the script would draw; while the accumulated
cost is below the limit the loop transforms the fidelity coordinate of the
next draw by the inverse transform, accumulates the cost of the transformed
point, and keeps it. -/
noncomputable def genInitLoop (limit : ℝ) : List (List ℝ) → ℝ → List (List ℝ)
  | [], _ => []
  | u :: rest, total =>
    if total < limit then
      setLast u (inv_transform (u.getLastD 0)) ::
        genInitLoop limit rest
          (total + cost_callable (setLast u (inv_transform (u.getLastD 0))))
    else []

/-- The initialization sampler of the script: run the sampling loop with
cost limit n times the cost of a full-fidelity point, then drop the last
point, the one whose cost made the running total reach the limit. -/
noncomputable def gen_init_data (n : ℝ) (draws : List (List ℝ)) : List (List ℝ) :=
  (genInitLoop (n * cost_callable [1, 1, 1]) draws 0).dropLast

/-- The observations the script returns with the initial data: the true
objective evaluated at each retained design point. -/
noncomputable def gen_init_obj (obj : List ℝ → List ℝ) (n : ℝ)
    (draws : List (List ℝ)) : List (List ℝ) :=
  (gen_init_data n draws).map obj

/-- The state threaded through each optimization loop of the script: the
design points evaluated so far, the matching observations, and the cost
ledger. -/
structure LoopState where
  trainX : List (List ℝ)
  trainObj : List (List ℝ)
  totalCost : ℝ

/-- One iteration tail of each loop: concatenate the new candidates and
observations onto the dataset and add the cost of the new candidates to the
ledger. -/
noncomputable def loopStep (s : LoopState) (newX newObj : List (List ℝ)) : LoopState :=
  { trainX := s.trainX ++ newX
    trainObj := s.trainObj ++ newObj
    totalCost := s.totalCost + (newX.map cost_callable).sum }

/-- Run an optimization loop for a number of iterations; the stream news
supplies, per iteration, the candidates returned by the acquisition
optimizer and the observations of the true objective at them. -/
noncomputable def runLoop (news : ℕ → List (List ℝ) × List (List ℝ))
    (init : LoopState) : ℕ → LoopState
  | 0 => init
  | k + 1 => loopStep (runLoop news init k) (news k).1 (news k).2

/-- The zero-acquisition post-processing step shared by the MOMF and the
MF-HVKG helpers: when the acquisition value is zero, the fidelity column,
that is the last coordinate of every candidate row, is set to zero. -/
noncomputable def acqPostprocess (candidates : List (List ℝ)) (vals : ℝ) :
    List (List ℝ) :=
  if vals = 0 then candidates.map (fun p => setLast p 0) else candidates

/-- The qNEHVI helper appends a full-fidelity column of ones to the
candidate rows before observing the true objective; the acquisition value
is not consulted. -/
def qnehviNewX (candidates : List (List ℝ)) : List (List ℝ) :=
  candidates.map (fun p => p ++ [1])

/-- The qNEHVI loop initialization: the initial random points have their
last coordinate set to one, full fidelity. -/
def qnehviInitX (pts : List (List ℝ)) : List (List ℝ) :=
  pts.map (fun p => setLast p 1)

/-- Modelled from the spec: weak pairwise domination between objective
vectors, coordinate by coordinate; the non-domination helper the script
calls is library code that is not under src. A vector y weakly dominates a
vector x when it is at least as good in every objective. -/
def weaklyDominates {α : Type} [LinearOrder α] (y x : List α) : Bool :=
  (List.zip x y).all (fun p => decide (p.1 ≤ p.2))

/-- Modelled from the spec: strict domination, at least as good in every
objective and strictly better in one. -/
def strictlyDominates {α : Type} [LinearOrder α] (y x : List α) : Bool :=
  weaklyDominates y x && (List.zip x y).any (fun p => decide (p.1 < p.2))

/-- Modelled from the spec: the non-domination mask over a list of
predicted objective vectors, one Boolean per index, true exactly when no
other vector strictly dominates the vector at that index; this stands in
for the pairwise-comparison loop the discretized Pareto evaluator calls,
which is library code not under src. -/
def nonDominatedMask {α : Type} [LinearOrder α] (preds : List (List α)) :
    List Bool :=
  (List.range preds.length).map (fun i =>
    (List.range preds.length).all (fun j =>
      j == i || ! strictlyDominates (preds.getD j []) (preds.getD i [])))

/-- Mask selection as the script performs it on the discrete candidate set:
keep exactly the rows whose mask entry is true. -/
def maskSelect {β : Type} (xs : List β) (mask : List Bool) : List β :=
  ((xs.zip mask).filter (fun p => p.2)).map (fun p => p.1)

/-- Modelled from the spec: the region of objective space dominated by a
set of objective vectors relative to a reference point. The glossary of the
spec defines the hypervolume as the volume of this region; the
partitioning-based hypervolume routine the script calls is library code not
under src. -/
def dominatedRegion (Y : Set (Fin 2 → ℝ)) (r : Fin 2 → ℝ) : Set (Fin 2 → ℝ) :=
  setOf (fun z => ∃ y ∈ Y, ∀ i, r i ≤ z i ∧ z i ≤ y i)

/-- Modelled from the spec: the hypervolume of a set of objective vectors
relative to a reference point, the volume of the dominated region. -/
noncomputable def hypervolumeHV (Y : Set (Fin 2 → ℝ)) (r : Fin 2 → ℝ) : ENNReal :=
  MeasureTheory.volume (dominatedRegion Y r)

/-- Modelled from the spec: the maximum achievable hypervolume of the
problem, namely the hypervolume of everything the true objective can
attain; it stands in for the known maximum hypervolume constant of the
problem class, which is library code not under src. -/
noncomputable def maxHV (obj : (Fin 3 → ℝ) → (Fin 2 → ℝ)) (r : Fin 2 → ℝ) :
    ENNReal :=
  hypervolumeHV (Set.range obj) r

/-- Claim C3: the cost model equals exp of 4.8 times the fidelity, the cost
of fidelity zero is exactly one, the cost of fidelity one is exactly exp of
4.8, the output is always positive, and the cost is strictly increasing in
the fidelity. -/
theorem c3_cost_model :
    (∀ x : ℝ, cost_func x = Real.exp (4.8 * x)) ∧
    cost_func 0 = 1 ∧ cost_func 1 = Real.exp 4.8 ∧
    (∀ x : ℝ, 0 < cost_func x) ∧ StrictMono cost_func := by
  refine ⟨fun x => rfl, ?_, ?_, fun x => Real.exp_pos _, ?_⟩
  · simp [cost_func]
  · norm_num [cost_func]
  · intro a b hab
    exact Real.exp_lt_exp.2 (by nlinarith)

/-- Witness for C3 at the concrete fidelity zero. -/
theorem c3_cost_model_witness : cost_func 0 = 1 :=
  c3_cost_model.2.1

/-- The exponential constant appearing in the inverse transform exceeds
one. -/
theorem one_lt_exp_const : (1 : ℝ) < Real.exp (24 / 5) := by
  calc (1 : ℝ) = Real.exp 0 := Real.exp_zero.symm
    _ < Real.exp (24 / 5) := Real.exp_lt_exp.2 (by norm_num)

/-- The reciprocal cost constant is below one. -/
theorem exp_neg_const_lt_one : Real.exp (-(4.8 : ℝ)) < 1 := by
  calc Real.exp (-(4.8 : ℝ)) < Real.exp 0 := Real.exp_lt_exp.2 (by norm_num)
    _ = 1 := Real.exp_zero

/-- Rewriting of the reciprocal cost constant through the constant of the
inverse transform. -/
theorem exp_neg_eq_inv : Real.exp (-(4.8 : ℝ)) = (Real.exp (24 / 5 : ℝ))⁻¹ := by
  rw [show (-(4.8 : ℝ)) = -(24 / 5 : ℝ) by norm_num, Real.exp_neg]

/-- The denominator inside the inverse transform is negative on the unit
interval. -/
theorem denom_neg {u : ℝ} (h1 : u ≤ 1) :
    Real.exp (24 / 5) * u - u - Real.exp (24 / 5) < 0 := by
  have hA := one_lt_exp_const
  nlinarith [mul_nonneg (sub_nonneg.2 h1) (sub_nonneg.2 hA.le)]

/-- Bounds for the auxiliary quantity one minus u times one minus the
reciprocal cost constant, for u in the unit interval. -/
theorem gAux_bounds {u : ℝ} (h0 : 0 ≤ u) (h1 : u ≤ 1) :
    Real.exp (-(4.8 : ℝ)) ≤ 1 - u * (1 - Real.exp (-(4.8 : ℝ))) ∧
    1 - u * (1 - Real.exp (-(4.8 : ℝ))) ≤ 1 := by
  have he := exp_neg_const_lt_one
  constructor
  · nlinarith [mul_nonneg (sub_nonneg.2 h1) (sub_nonneg.2 he.le)]
  · nlinarith [mul_nonneg h0 (sub_nonneg.2 he.le)]

/-- The auxiliary quantity is positive on the unit interval. -/
theorem gAux_pos {u : ℝ} (h0 : 0 ≤ u) (h1 : u ≤ 1) :
    0 < 1 - u * (1 - Real.exp (-(4.8 : ℝ))) :=
  lt_of_lt_of_le (Real.exp_pos _) (gAux_bounds h0 h1).1

/-- The source inverse transform coincides with the closed form stated by
the spec on the unit interval. -/
theorem inv_transform_eq {u : ℝ} (h1 : u ≤ 1) :
    inv_transform u =
      -Real.log (1 - u * (1 - Real.exp (-(4.8 : ℝ)))) / 4.8 := by
  have hA := one_lt_exp_const
  have hA0 : Real.exp (24 / 5 : ℝ) ≠ 0 := Real.exp_ne_zero _
  have hd := denom_neg h1
  have hdne : Real.exp (24 / 5) * u - u - Real.exp (24 / 5) ≠ 0 := ne_of_lt hd
  have hgpos : 0 < 1 - u * (1 - Real.exp (-(4.8 : ℝ))) := by
    have hrw : 1 - u * (1 - Real.exp (-(4.8 : ℝ))) =
        -(Real.exp (24 / 5) * u - u - Real.exp (24 / 5)) / Real.exp (24 / 5) := by
      rw [exp_neg_eq_inv]
      field_simp
      ring
    rw [hrw]
    have : 0 < -(Real.exp (24 / 5) * u - u - Real.exp (24 / 5)) := by linarith
    positivity
  have hgne : 1 - u * (1 - Real.exp (-(4.8 : ℝ))) ≠ 0 := ne_of_gt hgpos
  have harg : -Real.exp (24 / 5) / (Real.exp (24 / 5) * u - u - Real.exp (24 / 5)) =
      (1 - u * (1 - Real.exp (-(4.8 : ℝ))))⁻¹ := by
    rw [exp_neg_eq_inv] at hgne ⊢
    rw [inv_eq_one_div, div_eq_div_iff hdne hgne]
    field_simp
    ring
  rw [inv_transform, harg, Real.log_inv]
  ring

/-- The inverse transform sends zero to zero. -/
theorem inv_transform_zero : inv_transform 0 = 0 := by
  have h : Real.exp (24 / 5) * 0 - 0 - Real.exp (24 / 5) = -Real.exp (24 / 5) := by
    ring
  rw [inv_transform, h, neg_div_neg_eq, div_self (Real.exp_ne_zero _),
    Real.log_one, mul_zero]

/-- The inverse transform sends one to one. -/
theorem inv_transform_one : inv_transform 1 = 1 := by
  have h : Real.exp (24 / 5) * 1 - 1 - Real.exp (24 / 5) = -1 := by ring
  rw [inv_transform, h]
  have h2 : -Real.exp (24 / 5) / (-1 : ℝ) = Real.exp (24 / 5) := by ring
  rw [h2, Real.log_exp]
  norm_num

/-- The CDF stated by the spec inverts the source inverse transform on the
unit interval. -/
theorem cdfF_inv_transform {u : ℝ} (h0 : 0 ≤ u) (h1 : u ≤ 1) :
    cdfF (inv_transform u) = u := by
  have hgpos := gAux_pos h0 h1
  have he := exp_neg_const_lt_one
  have hne : 1 - Real.exp (-(4.8 : ℝ)) ≠ 0 := by
    have := Real.exp_pos (-(4.8 : ℝ)); intro hc; nlinarith
  rw [cdfF, inv_transform_eq h1]
  have harg : -(4.8 * (-Real.log (1 - u * (1 - Real.exp (-(4.8 : ℝ)))) / 4.8)) =
      Real.log (1 - u * (1 - Real.exp (-(4.8 : ℝ)))) := by ring
  rw [harg, Real.exp_log hgpos]
  have h48 : Real.exp (-4.8 : ℝ) = Real.exp (-(4.8 : ℝ)) := by norm_num
  rw [h48]
  field_simp

/-- The inverse transform lands in the unit interval when applied to a
point of the unit interval. -/
theorem inv_transform_mem {u : ℝ} (h0 : 0 ≤ u) (h1 : u ≤ 1) :
    0 ≤ inv_transform u ∧ inv_transform u ≤ 1 := by
  have hgpos := gAux_pos h0 h1
  have ⟨hlo, hhi⟩ := gAux_bounds h0 h1
  have hlogle : Real.log (1 - u * (1 - Real.exp (-(4.8 : ℝ)))) ≤ 0 :=
    Real.log_nonpos hgpos.le hhi
  have hlogge : -(4.8 : ℝ) ≤ Real.log (1 - u * (1 - Real.exp (-(4.8 : ℝ)))) :=
    (Real.le_log_iff_exp_le hgpos).2 hlo
  rw [inv_transform_eq h1]
  constructor
  · exact div_nonneg (by linarith) (by norm_num)
  · rw [div_le_one (by norm_num : (0:ℝ) < 4.8)]
    linarith

/-- The inverse transform is strictly increasing on the unit interval. -/
theorem inv_transform_strictMonoOn {u v : ℝ} (h0 : 0 ≤ u) (h1 : v ≤ 1)
    (huv : u < v) : inv_transform u < inv_transform v := by
  have h0v : 0 ≤ v := le_of_lt (lt_of_le_of_lt h0 huv)
  have h1u : u ≤ 1 := le_of_lt (lt_of_lt_of_le huv h1)
  have he := exp_neg_const_lt_one
  have hgv : 0 < 1 - v * (1 - Real.exp (-(4.8 : ℝ))) := gAux_pos h0v h1
  have hlt : 1 - v * (1 - Real.exp (-(4.8 : ℝ))) <
      1 - u * (1 - Real.exp (-(4.8 : ℝ))) := by
    have hepos := Real.exp_pos (-(4.8 : ℝ))
    nlinarith
  have hlog := Real.log_lt_log hgv hlt
  rw [inv_transform_eq h1u, inv_transform_eq h1]
  exact (div_lt_div_iff_of_pos_right (by norm_num)).2 (by linarith)

/-- Claim C2: the inverse transform is the exact closed-form inverse CDF of
the density proportional to the reciprocal cost: it maps the unit interval
into itself, is strictly increasing, fixes zero and one, equals the closed
form stated by the spec, and is inverted by the CDF of the target
density. -/
theorem c2_inv_transform :
    inv_transform 0 = 0 ∧ inv_transform 1 = 1 ∧
    (∀ u : ℝ, 0 ≤ u → u ≤ 1 →
      0 ≤ inv_transform u ∧ inv_transform u ≤ 1 ∧
      inv_transform u = -Real.log (1 - u * (1 - Real.exp (-(4.8 : ℝ)))) / 4.8 ∧
      cdfF (inv_transform u) = u) ∧
    (∀ u v : ℝ, 0 ≤ u → v ≤ 1 → u < v → inv_transform u < inv_transform v) := by
  refine ⟨inv_transform_zero, inv_transform_one, fun u h0 h1 => ?_,
    fun u v h0 h1 huv => inv_transform_strictMonoOn h0 h1 huv⟩
  obtain ⟨ha, hb⟩ := inv_transform_mem h0 h1
  exact ⟨ha, hb, inv_transform_eq h1, cdfF_inv_transform h0 h1⟩

/-- Witness for C2 at the concrete point one half. -/
theorem c2_inv_transform_witness :
    (0 : ℝ) ≤ 1 / 2 ∧ (1 / 2 : ℝ) ≤ 1 ∧ cdfF (inv_transform (1 / 2)) = 1 / 2 :=
  ⟨by norm_num, by norm_num,
    (c2_inv_transform.2.2.1 (1 / 2) (by norm_num) (by norm_num)).2.2.2⟩

/-- The cost of any point is positive. -/
theorem cost_callable_pos (x : List ℝ) : 0 < cost_callable x :=
  Real.exp_pos _

/-- The cost model is monotone in the fidelity. -/
theorem cost_func_mono {a b : ℝ} (h : a ≤ b) : cost_func a ≤ cost_func b :=
  Real.exp_le_exp.2 (by nlinarith)

/-- When the running total already reached the limit, the sampling loop
collects nothing. -/
theorem genInitLoop_of_not_lt (limit : ℝ) (draws : List (List ℝ)) (total : ℝ)
    (h : ¬ total < limit) : genInitLoop limit draws total = [] := by
  cases draws with
  | nil => rfl
  | cons u rest => simp [genInitLoop, h]

/-- Budget invariant of the sampling loop: the total cost of everything
collected apart from the last point, added to the running total at entry,
stays strictly below the limit. -/
theorem genInitLoop_budget (limit : ℝ) :
    ∀ (draws : List (List ℝ)) (total : ℝ), total < limit →
      total + (((genInitLoop limit draws total).dropLast).map cost_callable).sum
        < limit := by
  intro draws
  induction draws with
  | nil =>
    intro total h
    simpa [genInitLoop] using h
  | cons u rest ih =>
    intro total h
    simp only [genInitLoop, if_pos h]
    by_cases hlt :
        total + cost_callable (setLast u (inv_transform (u.getLastD 0))) < limit
    · cases ht : genInitLoop limit rest
          (total + cost_callable (setLast u (inv_transform (u.getLastD 0)))) with
      | nil =>
        simpa using h
      | cons b bs =>
        have hih := ih
          (total + cost_callable (setLast u (inv_transform (u.getLastD 0)))) hlt
        rw [ht] at hih
        simp only [List.dropLast_cons₂, List.map_cons, List.sum_cons] at hih ⊢
        linarith
    · rw [genInitLoop_of_not_lt limit rest _ hlt]
      simpa using h

/-- The full-fidelity point used to compute the cost limit costs exactly
the cost of fidelity one. -/
theorem cost_callable_ones : cost_callable [1, 1, 1] = cost_func 1 := rfl

/-- Claim C1: for every positive budget n, the dataset returned by the
initialization sampler has realized total cost at most n times the cost of
a full-fidelity point, and indeed strictly below it, the overshoot point
having been dropped. -/
theorem c1_gen_init_data_budget (draws : List (List ℝ)) (n : ℝ) (hn : 0 < n) :
    ((gen_init_data n draws).map cost_callable).sum ≤ n * cost_func 1 ∧
    ((gen_init_data n draws).map cost_callable).sum < n * cost_func 1 := by
  have hlim : 0 < n * cost_callable [1, 1, 1] :=
    mul_pos hn (cost_callable_pos _)
  have h := genInitLoop_budget (n * cost_callable [1, 1, 1]) draws 0 hlim
  rw [cost_callable_ones] at h
  rw [gen_init_data, cost_callable_ones]
  constructor
  · linarith
  · linarith

/-- Witness for C1 at budget one with no draws. -/
theorem c1_gen_init_data_budget_witness :
    (0 : ℝ) < 1 ∧
    ((gen_init_data 1 []).map cost_callable).sum < 1 * cost_func 1 :=
  ⟨one_pos, (c1_gen_init_data_budget [] 1 one_pos).2⟩

/-- Claim C4: when the very first drawn point already costs at least the
whole budget, the sampler returns an empty dataset and an empty observation
list, with no retry and no substitution. -/
theorem c4_first_draw_exhausts (u : List ℝ) (rest : List (List ℝ)) (n : ℝ)
    (obj : List ℝ → List ℝ) (hn : 0 < n)
    (hcost : n * cost_func 1 ≤
      cost_callable (setLast u (inv_transform (u.getLastD 0)))) :
    gen_init_data n (u :: rest) = [] ∧ gen_init_obj obj n (u :: rest) = [] := by
  have hlim : (0 : ℝ) < n * cost_callable [1, 1, 1] :=
    mul_pos hn (cost_callable_pos _)
  have hstop : ¬ (0 + cost_callable (setLast u (inv_transform (u.getLastD 0))) <
      n * cost_callable [1, 1, 1]) := by
    rw [cost_callable_ones]
    linarith
  have hloop : genInitLoop (n * cost_callable [1, 1, 1]) (u :: rest) 0 =
      [setLast u (inv_transform (u.getLastD 0))] := by
    simp only [genInitLoop, if_pos hlim]
    rw [genInitLoop_of_not_lt _ _ _ hstop]
  have hdata : gen_init_data n (u :: rest) = [] := by
    rw [gen_init_data, hloop, List.dropLast_single]
  exact ⟨hdata, by rw [gen_init_obj, hdata]; rfl⟩

/-- Witness for C4: a first draw at full fidelity exhausts the unit
budget. -/
theorem c4_first_draw_exhausts_witness :
    (0 : ℝ) < 1 ∧
    1 * cost_func 1 ≤
      cost_callable (setLast [0, 0, 1] (inv_transform (([0, 0, 1] : List ℝ).getLastD 0))) ∧
    gen_init_data 1 [[0, 0, 1]] = [] := by
  have hg : (([0, 0, 1] : List ℝ).getLastD 0) = 1 := rfl
  have hc : 1 * cost_func 1 ≤
      cost_callable (setLast [0, 0, 1] (inv_transform (([0, 0, 1] : List ℝ).getLastD 0))) := by
    rw [hg, inv_transform_one]
    have hcc : cost_callable (setLast [0, 0, 1] 1) = cost_func 1 := rfl
    rw [hcc, one_mul]
  exact ⟨one_pos, hc,
    (c4_first_draw_exhausts [0, 0, 1] [] 1 (fun x => x) one_pos hc).1⟩

/-- The cost of any batch of candidates is nonnegative. -/
theorem cost_sum_nonneg (l : List (List ℝ)) : 0 ≤ (l.map cost_callable).sum := by
  induction l with
  | nil => simp
  | cons x xs ih =>
    simp only [List.map_cons, List.sum_cons]
    have := cost_callable_pos x
    linarith

/-- A nonempty batch of candidates with nonnegative fidelities costs at
least one, the cost of fidelity zero. -/
theorem cost_sum_ge_one {l : List (List ℝ)} (hne : l ≠ [])
    (hfid : ∀ x ∈ l, 0 ≤ x.getLastD 0) : 1 ≤ (l.map cost_callable).sum := by
  cases l with
  | nil => exact absurd rfl hne
  | cons x xs =>
    simp only [List.map_cons, List.sum_cons]
    have h1 : cost_func 0 ≤ cost_callable x :=
      cost_func_mono (hfid x (List.mem_cons_self x xs))
    have h0 : cost_func 0 = 1 := by simp [cost_func]
    have h2 := cost_sum_nonneg xs
    rw [h0] at h1
    linarith

/-- Claim C6: each optimization loop terminates after finitely many
iterations. Every iteration adds at least the cost of fidelity zero, which
is one, to the ledger; all iterations run while the accumulated cost is
below the budget times the cost of fidelity one; and at the first iteration
index where the loop stops, the accumulated cost has reached the budget
times the cost of fidelity one. -/
theorem c6_loops_terminate (news : ℕ → List (List ℝ) × List (List ℝ))
    (init : LoopState) (B : ℝ)
    (hne : ∀ k, (news k).1 ≠ [])
    (hfid : ∀ k, ∀ x ∈ (news k).1, 0 ≤ x.getLastD 0) :
    (∀ k, (runLoop news init k).totalCost + cost_func 0 ≤
      (runLoop news init (k + 1)).totalCost) ∧
    cost_func 0 = 1 ∧
    ∃ N : ℕ, (∀ k < N, (runLoop news init k).totalCost < B * cost_func 1) ∧
      B * cost_func 1 ≤ (runLoop news init N).totalCost := by
  have hcf0 : cost_func 0 = 1 := by simp [cost_func]
  have hstep : ∀ k, (runLoop news init k).totalCost + 1 ≤
      (runLoop news init (k + 1)).totalCost := by
    intro k
    have h1 := cost_sum_ge_one (hne k) (hfid k)
    simp only [runLoop, loopStep]
    linarith
  refine ⟨fun k => by rw [hcf0]; exact hstep k, hcf0, ?_⟩
  have hlb : ∀ k : ℕ, init.totalCost + k ≤ (runLoop news init k).totalCost := by
    intro k
    induction k with
    | zero => simp [runLoop]
    | succ k ih =>
      have := hstep k
      push_cast
      push_cast at ih
      linarith
  obtain ⟨M, hM⟩ := exists_nat_ge (B * cost_func 1 - init.totalCost)
  have hexists : ∃ k : ℕ, B * cost_func 1 ≤ (runLoop news init k).totalCost :=
    ⟨M, by have := hlb M; linarith⟩
  classical
  refine ⟨Nat.find hexists, fun k hk => ?_, Nat.find_spec hexists⟩
  have hmin := Nat.find_min hexists hk
  push_neg at hmin
  exact hmin

/-- Witness for C6 with a constant stream of single full-batch candidates
at fidelity zero and an empty initial state. -/
theorem c6_loops_terminate_witness :
    (∀ k : ℕ, ((fun _ : ℕ => ([[(0:ℝ), 0, 0]], ([] : List (List ℝ)))) k).1 ≠ []) ∧
    ∃ N : ℕ, (1 : ℝ) * cost_func 1 ≤
      (runLoop (fun _ : ℕ => ([[(0:ℝ), 0, 0]], ([] : List (List ℝ))))
        (LoopState.mk [] [] 0) N).totalCost := by
  have hne : ∀ k : ℕ,
      ((fun _ : ℕ => ([[(0:ℝ), 0, 0]], ([] : List (List ℝ)))) k).1 ≠ [] := by
    intro k
    simp
  have hfid : ∀ k : ℕ, ∀ x ∈ ((fun _ : ℕ =>
      ([[(0:ℝ), 0, 0]], ([] : List (List ℝ)))) k).1, 0 ≤ x.getLastD 0 := by
    intro k x hx
    simp only [List.mem_singleton] at hx
    subst hx
    norm_num
  obtain ⟨-, -, N, -, hN⟩ := c6_loops_terminate
    (fun _ : ℕ => ([[(0:ℝ), 0, 0]], ([] : List (List ℝ))))
    (LoopState.mk [] [] 0) 1 hne hfid
  exact ⟨hne, N, hN⟩

/-- Claim C7: across iterations of any loop the cost ledger never
decreases, the dataset length never decreases, and the design points and
observations appended in earlier iterations are preserved unchanged as the
leading rows of every later dataset. -/
theorem c7_loop_monotone (news : ℕ → List (List ℝ) × List (List ℝ))
    (init : LoopState) (j k : ℕ) (h : j ≤ k) :
    (runLoop news init j).totalCost ≤ (runLoop news init k).totalCost ∧
    (runLoop news init j).trainX.length ≤ (runLoop news init k).trainX.length ∧
    (runLoop news init k).trainX.take (runLoop news init j).trainX.length =
      (runLoop news init j).trainX ∧
    (runLoop news init k).trainObj.take (runLoop news init j).trainObj.length =
      (runLoop news init j).trainObj := by
  induction k, h using Nat.le_induction with
  | base => exact ⟨le_refl _, le_refl _, List.take_length _, List.take_length _⟩
  | succ k hjk ih =>
    obtain ⟨h1, h2, h3, h4⟩ := ih
    have hobjlen : (runLoop news init j).trainObj.length ≤
        (runLoop news init k).trainObj.length := by
      have := congrArg List.length h4
      rw [List.length_take] at this
      omega
    refine ⟨?_, ?_, ?_, ?_⟩
    · have := cost_sum_nonneg (news k).1
      simp only [runLoop, loopStep]
      linarith
    · simp only [runLoop, loopStep]
      rw [List.length_append]
      omega
    · simp only [runLoop, loopStep]
      rw [List.take_append_of_le_length h2]
      exact h3
    · simp only [runLoop, loopStep]
      rw [List.take_append_of_le_length hobjlen]
      exact h4

/-- Witness for C7 comparing iterations zero and one of a loop fed with
empty batches. -/
theorem c7_loop_monotone_witness :
    (0 : ℕ) ≤ 1 ∧
    (runLoop (fun _ : ℕ => (([] : List (List ℝ)), ([] : List (List ℝ))))
        (LoopState.mk [] [] 0) 0).totalCost ≤
      (runLoop (fun _ : ℕ => (([] : List (List ℝ)), ([] : List (List ℝ))))
        (LoopState.mk [] [] 0) 1).totalCost :=
  ⟨Nat.zero_le 1,
    (c7_loop_monotone (fun _ : ℕ => (([] : List (List ℝ)), ([] : List (List ℝ))))
      (LoopState.mk [] [] 0) 0 1 (Nat.zero_le 1)).1⟩

/-- Claim C5, counterexample: the qNEHVI loop is one of the optimization
loops, yet it discards the acquisition value entirely; even when that value
is zero, the candidate row it observes carries fidelity coordinate one, not
zero. -/
theorem c5_counterexample :
    (0 : ℝ) = 0 ∧
    (qnehviNewX [[1 / 2, 1 / 2]]).map (fun p => p.getLastD 0) = [1] ∧
    (1 : ℝ) ≠ 0 :=
  ⟨rfl, rfl, one_ne_zero⟩

/-- Claim C5 amended: in the MOMF and MF-HVKG loops, whenever the
acquisition optimizer returns the value zero, every candidate row has its
fidelity coordinate, the last coordinate, set to exactly zero before the
true objective is observed at it. -/
theorem c5_amended_zero_acq (candidates : List (List ℝ)) (vals : ℝ)
    (h : vals = 0) :
    ∀ p ∈ acqPostprocess candidates vals, p.getLast? = some 0 := by
  intro p hp
  rw [acqPostprocess, if_pos h] at hp
  obtain ⟨q, hq, rfl⟩ := List.mem_map.1 hp
  simp [setLast, List.getLast?_concat]

/-- Witness for C5 amended at a concrete candidate batch and the zero
acquisition value. -/
theorem c5_amended_zero_acq_witness :
    (0 : ℝ) = 0 ∧
    ∀ p ∈ acqPostprocess [[(1:ℝ) / 2, 1 / 2, 1 / 2]] 0, p.getLast? = some 0 :=
  ⟨rfl, c5_amended_zero_acq [[(1:ℝ) / 2, 1 / 2, 1 / 2]] 0 rfl⟩

/-- Claim C10: every design point the qNEHVI loop ever evaluates has
fidelity coordinate exactly one: the initial points are assigned fidelity
one, and each later candidate gets a column of ones appended before the
true objective is evaluated. -/
theorem c10_qnehvi_full_fidelity (pts obj0 : List (List ℝ))
    (cands objs : ℕ → List (List ℝ)) (c0 : ℝ) (k : ℕ) (x : List ℝ)
    (hx : x ∈ (runLoop (fun i => (qnehviNewX (cands i), objs i))
      (LoopState.mk (qnehviInitX pts) obj0 c0) k).trainX) :
    x.getLast? = some 1 := by
  induction k with
  | zero =>
    simp only [runLoop, qnehviInitX] at hx
    obtain ⟨p, hp, rfl⟩ := List.mem_map.1 hx
    simp [setLast, List.getLast?_concat]
  | succ k ih =>
    simp only [runLoop, loopStep] at hx
    rcases List.mem_append.1 hx with hmem | hmem
    · exact ih hmem
    · simp only [qnehviNewX] at hmem
      obtain ⟨p, hp, rfl⟩ := List.mem_map.1 hmem
      simp [List.getLast?_concat]

/-- Witness for C10 at iteration zero with one concrete initial point. -/
theorem c10_qnehvi_full_fidelity_witness :
    setLast [(0:ℝ), 0, 0] 1 ∈
      (runLoop (fun _ : ℕ => (qnehviNewX ([] : List (List ℝ)), ([] : List (List ℝ))))
        (LoopState.mk (qnehviInitX [[(0:ℝ), 0, 0]]) [] 0) 0).trainX ∧
    (setLast [(0:ℝ), 0, 0] 1).getLast? = some 1 := by
  have hmem : setLast [(0:ℝ), 0, 0] 1 ∈
      (runLoop (fun _ : ℕ => (qnehviNewX ([] : List (List ℝ)), ([] : List (List ℝ))))
        (LoopState.mk (qnehviInitX [[(0:ℝ), 0, 0]]) [] 0) 0).trainX := by
    simp [runLoop, qnehviInitX]
  exact ⟨hmem, c10_qnehvi_full_fidelity [[(0:ℝ), 0, 0]] [] (fun _ => [])
    (fun _ => []) 0 0 (setLast [(0:ℝ), 0, 0] 1) hmem⟩

/-- Reading one entry of the non-domination mask. -/
theorem nonDominatedMask_getD {α : Type} [LinearOrder α]
    (preds : List (List α)) (i : ℕ) (hi : i < preds.length) :
    (nonDominatedMask preds).getD i false =
      (List.range preds.length).all (fun j =>
        j == i || ! strictlyDominates (preds.getD j []) (preds.getD i [])) := by
  rw [nonDominatedMask, List.getD_eq_getElem?_getD, List.getElem?_map,
    List.getElem?_range hi]
  rfl

/-- A surviving index is dominated by no other index. -/
theorem nonDominatedMask_no_dominator {α : Type} [LinearOrder α]
    (preds : List (List α)) (i : ℕ) (hi : i < preds.length)
    (h : (nonDominatedMask preds).getD i false = true)
    (j : ℕ) (hj : j < preds.length) (hij : j ≠ i) :
    strictlyDominates (preds.getD j []) (preds.getD i []) = false := by
  rw [nonDominatedMask_getD preds i hi] at h
  have hall := List.all_eq_true.1 h j (List.mem_range.2 hj)
  rcases Bool.or_eq_true_iff.1 hall with hcase | hcase
  · exact absurd (eq_of_beq hcase) hij
  · simpa using hcase

/-- Claim C8: the discretized non-domination filter selects a subset of the
input candidate set, never adding points, and no two surviving indices are
in strict domination in either direction. -/
theorem c8_nondomination_filter {α β : Type} [LinearOrder α]
    (xs : List β) (mask : List Bool) (preds : List (List α)) (i j : ℕ)
    (hi : i < preds.length) (hj : j < preds.length) (hij : i ≠ j)
    (hmi : (nonDominatedMask preds).getD i false = true)
    (hmj : (nonDominatedMask preds).getD j false = true) :
    (∀ x ∈ maskSelect xs mask, x ∈ xs) ∧
    strictlyDominates (preds.getD j []) (preds.getD i []) = false ∧
    strictlyDominates (preds.getD i []) (preds.getD j []) = false := by
  refine ⟨?_, ?_, ?_⟩
  · intro x hx
    rw [maskSelect] at hx
    obtain ⟨p, hp, rfl⟩ := List.mem_map.1 hx
    exact (List.of_mem_zip (List.mem_filter.1 hp).1).1
  · exact nonDominatedMask_no_dominator preds i hi hmi j hj
      (fun hc => hij hc.symm)
  · exact nonDominatedMask_no_dominator preds j hj hmj i hi hij

/-- Witness for C8 on a concrete two-point Pareto front over the
integers. -/
theorem c8_nondomination_filter_witness :
    (0 < ([[(0:ℤ), 1], [1, 0]] : List (List ℤ)).length) ∧
    (1 < ([[(0:ℤ), 1], [1, 0]] : List (List ℤ)).length) ∧
    ((0 : ℕ) ≠ 1) ∧
    ((nonDominatedMask ([[(0:ℤ), 1], [1, 0]] : List (List ℤ))).getD 0 false = true) ∧
    ((nonDominatedMask ([[(0:ℤ), 1], [1, 0]] : List (List ℤ))).getD 1 false = true) ∧
    strictlyDominates (([[(0:ℤ), 1], [1, 0]] : List (List ℤ)).getD 1 [])
      (([[(0:ℤ), 1], [1, 0]] : List (List ℤ)).getD 0 []) = false := by
  refine ⟨by decide, by decide, by decide, by decide, by decide, ?_⟩
  exact (c8_nondomination_filter ([5] : List ℤ) [true]
    ([[(0:ℤ), 1], [1, 0]] : List (List ℤ)) 0 1 (by decide) (by decide)
    (by decide) (by decide) (by decide)).2.1

/-- Claim C9: the hypervolume of the true objective values of any set of
design points is at most the maximum achievable hypervolume of the problem,
for any reference point; this covers the value returned by either strategy
of the Pareto evaluator, which is the hypervolume of true objective values
of the selected feasible designs. -/
theorem c9_hypervolume_le_max (obj : (Fin 3 → ℝ) → (Fin 2 → ℝ))
    (S : Set (Fin 3 → ℝ)) (r : Fin 2 → ℝ) :
    hypervolumeHV (obj '' S) r ≤ maxHV obj r := by
  apply MeasureTheory.measure_mono
  rintro z ⟨y, ⟨x, -, rfl⟩, hz⟩
  exact ⟨obj x, ⟨x, rfl⟩, hz⟩

/-- Witness for C9 at a concrete objective, design set and reference
point. -/
theorem c9_hypervolume_le_max_witness :
    hypervolumeHV ((fun _ : Fin 3 → ℝ => (fun _ : Fin 2 => (0:ℝ))) '' Set.univ)
        (fun _ : Fin 2 => (0:ℝ)) ≤
      maxHV (fun _ : Fin 3 → ℝ => (fun _ : Fin 2 => (0:ℝ)))
        (fun _ : Fin 2 => (0:ℝ)) :=
  c9_hypervolume_le_max (fun _ : Fin 3 → ℝ => (fun _ : Fin 2 => (0:ℝ)))
    Set.univ (fun _ : Fin 2 => (0:ℝ))

end MOMF
